import Mathlib

/-!
Shallow embedding of the DMX/Art-Net gateway (`src/artnet.py`, class
`DMXGateway` and helpers) and proofs about its channel buffer, packet
framing, and fade scheduler.

Modelling conventions:
* Python ints are `ℤ` (channel values, indices); channel counts are `ℕ`.
* Python floats are modelled as `ℚ`: the fade arithmetic only involves
  small integers divided by small frame counts, far from any regime where
  binary floating point diverges from exact rationals by as much as 1/2,
  so rounding results agree.
* `round` in Python 3 is banker's rounding (half to even): `pyRound`.
* `int(...)` on a nonnegative/negative float truncates toward zero: `pyTrunc`.
* Python list indexing wraps negative indices `-len ≤ k < 0` to `len + k`
  and raises `IndexError` outside `[-len, len)`.  `pyGet`/`pyWrite` are the
  total variants (out-of-range reads default to 0 and writes are dropped);
  theorems about code paths that would raise are stated only on in-range
  indices.  `set_channel_rgb`, where the possible `IndexError` is
  observable behaviour, uses the faithful `Option`-valued `pyListSet`.
* UDP transmission has no effect on the buffer; `send()` is modelled by
  the serialized frame it would transmit (`serializeFrame`) and, in the
  fade loop, by counting how many times it is invoked per step.
-/

namespace Artnet

/-- Python 3 `round` on an exact value: round half to even (banker's
rounding), returning an integer.  `round(0.5) = 0`, `round(1.5) = 2`,
`round(-0.5) = 0`, `round(-1.5) = -2`. -/
def pyRound (q : ℚ) : ℤ :=
  if q - ⌊q⌋ < 1/2 then ⌊q⌋
  else if 1/2 < q - ⌊q⌋ then ⌊q⌋ + 1
  else if ⌊q⌋ % 2 = 0 then ⌊q⌋ else ⌊q⌋ + 1

/-- Python `int(...)` applied to a numeric value: truncation toward zero. -/
def pyTrunc (q : ℚ) : ℤ :=
  if 0 ≤ q then ⌊q⌋ else -⌊-q⌋

/-- Python list read `l[k]`: a negative index `-len ≤ k < 0` wraps to
`len + k`; an index outside `[-len, len)` raises `IndexError` in Python
(modelled totally here with default 0; theorems restrict to indices the
code keeps in range). -/
def pyGet (l : List ℤ) (idx : ℤ) : ℤ :=
  if 0 ≤ idx then l.getD idx.toNat 0
  else l.getD (idx + l.length).toNat 0

/-- Python list write `l[k] = v`: a negative index `-len ≤ k < 0` wraps to
`len + k`; an index outside `[-len, len)` raises `IndexError` in Python
(modelled here as a dropped write, via `List.set`'s out-of-range no-op;
theorems restrict to indices the code keeps in range). -/
def pyWrite (l : List ℤ) (idx v : ℤ) : List ℤ :=
  if 0 ≤ idx then l.set idx.toNat v
  else l.set (idx + l.length).toNat v

/-- Python list write `l[k] = v` with the `IndexError` made explicit:
`none` exactly when Python would raise. -/
def pyListSet (l : List ℤ) (idx v : ℤ) : Option (List ℤ) :=
  if 0 ≤ idx ∧ idx < l.length then some (l.set idx.toNat v)
  else if -(l.length : ℤ) ≤ idx ∧ idx < 0 then some (l.set (idx + l.length).toNat v)
  else none

/-- State of `DMXGateway`: the normalized channel count and the channel
array (host, port and the socket do not influence buffer behaviour). -/
structure DMXGateway where
  numberOfChannels : ℕ
  channels : List ℤ
  deriving Repr, DecidableEq

/-- Channel-count normalization in `DMXGateway.__init__`: cap at 512,
then add 1 when the *requested* count (not the capped one) is odd. -/
def initChannelCount (number_of_channels : ℕ) : ℕ :=
  let n := if number_of_channels ≤ 512 then number_of_channels else 512
  if number_of_channels % 2 ≠ 0 then n + 1 else n

/-- `DMXGateway.__init__`: normalize the channel count and fill the
buffer with the default level. -/
def DMXGateway.init (default_level : ℤ) (number_of_channels : ℕ) : DMXGateway :=
  { numberOfChannels := initChannelCount number_of_channels
    channels := List.replicate (initChannelCount number_of_channels) default_level }

/-- The 18-byte Art-Net header built in `DMXGateway.__init__`:
`"Art-Net\0"`, ArtDMX opcode little-endian, protocol version 14
big-endian, sequence, physical, universe, then the channel count packed
as a big-endian 16-bit value (`pack` with format `>h`). -/
def basePacket (n : ℕ) : List ℤ :=
  [65, 114, 116, 45, 78, 101, 116, 0x00,
   0x00, 0x50,
   0x00, 0x0e,
   0x00, 0x00,
   0x00, 0x00,
   (n : ℤ) / 256, (n : ℤ) % 256]

/-- The frame `DMXGateway.send` transmits: the base packet followed by
one byte per channel, in order. -/
def serializeFrame (g : DMXGateway) : List ℤ :=
  basePacket g.numberOfChannels ++ g.channels

/-- `DMXGateway.set_channel` (buffer effect and return value; the
optional immediate `send()` does not change the buffer). -/
def set_channel (g : DMXGateway) (channel value : ℤ) : DMXGateway × Bool :=
  if 1 ≤ channel ∧ channel ≤ (g.numberOfChannels : ℤ) ∧ 0 ≤ value ∧ value ≤ 255 then
    ({ g with channels := g.channels.set (channel - 1).toNat value }, true)
  else
    (g, false)

/-- `DMXGateway.get_channel_level`. -/
def get_channel_level (g : DMXGateway) (channel : ℤ) : ℤ :=
  pyGet g.channels (channel - 1)

/-- The loop of `DMXGateway.set_channel_rgb`: for each position `i` in
`values`, write `values[i]` to `self._channels[channel - 1 + i]` when
`channel + i ≤ N` and `0 ≤ values[i] ≤ 255`, else skip; `none` models an
`IndexError` escaping the call. -/
def set_channel_rgb_loop (n : ℕ) (channel : ℤ) : List ℤ → ℤ → List ℤ → Option (List ℤ)
  | [], _, buf => some buf
  | v :: rest, i, buf =>
    if channel + i ≤ (n : ℤ) ∧ 0 ≤ v ∧ v ≤ 255 then
      match pyListSet buf (channel - 1 + i) v with
      | some buf' => set_channel_rgb_loop n channel rest (i + 1) buf'
      | none => none
    else
      set_channel_rgb_loop n channel rest (i + 1) buf

/-- `DMXGateway.set_channel_rgb`: apply the loop, then return `True`
unconditionally (`none` models the call raising `IndexError` instead of
returning). -/
def set_channel_rgb (g : DMXGateway) (channel : ℤ) (values : List ℤ) :
    Option (DMXGateway × Bool) :=
  (set_channel_rgb_loop g.numberOfChannels channel values 0 g.channels).map
    fun buf => ({ g with channels := buf }, true)

/-- Normalization of the `value` argument of `fade_channels`: a scalar
becomes a one-element list, a tuple/list is taken as is. -/
def toValueArr : ℤ ⊕ List ℤ → List ℤ
  | Sum.inl v => [v]
  | Sum.inr l => l

/-- `number_of_frames = max(int(seconds*fps), 1)`. -/
def numberOfFrames (seconds fps : ℚ) : ℤ :=
  max (pyTrunc (seconds * fps)) 1

/-- Modelled from the spec's words for comparison: the claimed step-count
formula `max(round(durationSeconds * fps), 1)` (with Python's `round`),
to be diffed against the source's `numberOfFrames`. -/
def numberOfFramesSpec (seconds fps : ℚ) : ℤ :=
  max (pyRound (seconds * fps)) 1

/-- The value `fade_channels` computes for the channel at position `x`
(with channel number `channel`) on step `i`:
`int(round(original + ((target - original)/number_of_frames) * i))`
with `target = value_arr[min(x, len(value_arr)-1)]` and
`original = original_values[channel-1]`. -/
def nextValue (original value_arr : List ℤ) (n : ℕ) (i : ℕ) (x : ℕ) (channel : ℤ) : ℤ :=
  pyRound ((pyGet original (channel - 1) : ℚ) +
    (((value_arr.getD (min x (value_arr.length - 1)) 0 : ℚ) -
      (pyGet original (channel - 1) : ℚ)) / (n : ℚ)) * (i : ℚ))

/-- The inner `for x, channel in enumerate(channels)` loop of one fade
step: write each channel's `nextValue` when it differs from the live
buffer, tracking the `values_changed` flag. -/
def fadeStepAux (original value_arr : List ℤ) (n i : ℕ) :
    List (ℕ × ℤ) → List ℤ → Bool → List ℤ × Bool
  | [], buf, changed => (buf, changed)
  | (x, channel) :: rest, buf, changed =>
    if pyGet buf (channel - 1) ≠ nextValue original value_arr n i x channel then
      fadeStepAux original value_arr n i rest
        (pyWrite buf (channel - 1) (nextValue original value_arr n i x channel)) true
    else
      fadeStepAux original value_arr n i rest buf changed

/-- One step `i` of the fade loop: run the inner loop over the enumerated
channel list, then call `send()` once iff any value changed.  Returns the
new buffer and the number of `send()` calls made during the step. -/
def fadeStep (original value_arr channels : List ℤ) (n i : ℕ) (buf : List ℤ) :
    List ℤ × ℕ :=
  ((fadeStepAux original value_arr n i channels.enum buf false).1,
   if (fadeStepAux original value_arr n i channels.enum buf false).2 then 1 else 0)

/-- Buffers after each of the remaining `k` steps, the next step index
being `i` (the loop is `for i in range(1, number_of_frames + 1)`). -/
def fadeTraceAux (original value_arr channels : List ℤ) (n : ℕ) :
    ℕ → ℕ → List ℤ → List (List ℤ)
  | 0, _, _ => []
  | k + 1, i, buf =>
    let buf' := (fadeStep original value_arr channels n i buf).1
    buf' :: fadeTraceAux original value_arr channels n k (i + 1) buf'

/-- The sequence of buffer states after steps `1, …, number_of_frames` of
`DMXGateway.fade_channels`. -/
def fadeTrace (g : DMXGateway) (channels : List ℤ) (value : ℤ ⊕ List ℤ)
    (seconds fps : ℚ) : List (List ℤ) :=
  fadeTraceAux g.channels (toValueArr value) channels (numberOfFrames seconds fps).toNat
    (numberOfFrames seconds fps).toNat 1 g.channels

/-- `DMXGateway.fade_channels`: the gateway state after the fade loop
completes (with no other concurrent writer). -/
def fade_channels (g : DMXGateway) (channels : List ℤ) (value : ℤ ⊕ List ℤ)
    (seconds fps : ℚ) : DMXGateway :=
  { g with channels := (fadeTrace g channels value seconds fps).getLastD g.channels }

/-! ### Basic facts about the Python primitives -/

/-- The channel-range invariant of the buffer: every value in `[0, 255]`. -/
def inRange (l : List ℤ) : Prop :=
  ∀ v ∈ l, 0 ≤ v ∧ v ≤ 255

instance : DecidablePred inRange := fun l =>
  List.decidableBAll (fun v => 0 ≤ v ∧ v ≤ 255) l

theorem pyRound_intCast (m : ℤ) : pyRound (m : ℚ) = m := by
  have h : ((m : ℚ)) - (⌊(m : ℚ)⌋ : ℚ) = 0 := by
    rw [Int.floor_intCast]; ring
  unfold pyRound
  rw [h, if_pos (by norm_num)]
  exact Int.floor_intCast m

theorem floor_le_pyRound (q : ℚ) : ⌊q⌋ ≤ pyRound q := by
  unfold pyRound; split_ifs <;> omega

theorem pyRound_le_floor_add_one (q : ℚ) : pyRound q ≤ ⌊q⌋ + 1 := by
  unfold pyRound; split_ifs <;> omega

theorem le_pyRound_of_le {m : ℤ} {q : ℚ} (h : (m : ℚ) ≤ q) : m ≤ pyRound q :=
  le_trans (Int.le_floor.mpr h) (floor_le_pyRound q)

theorem pyRound_le_of_le {m : ℤ} {q : ℚ} (h : q ≤ (m : ℚ)) : pyRound q ≤ m := by
  have hf : ⌊q⌋ ≤ m := by
    have h2 := Int.floor_mono h
    rwa [Int.floor_intCast] at h2
  rcases lt_or_eq_of_le hf with hlt | heq
  · exact le_trans (pyRound_le_floor_add_one q) (by omega)
  · have hcast : ((⌊q⌋ : ℚ)) = (m : ℚ) := by exact_mod_cast heq
    have h0 : q - (⌊q⌋ : ℚ) < 1/2 := by rw [hcast]; linarith
    unfold pyRound
    rw [if_pos h0]
    omega

theorem pyRound_mono {a b : ℚ} (h : a ≤ b) : pyRound a ≤ pyRound b := by
  have hf : ⌊a⌋ ≤ ⌊b⌋ := Int.floor_mono h
  rcases lt_or_eq_of_le hf with hlt | heq
  · calc pyRound a ≤ ⌊a⌋ + 1 := pyRound_le_floor_add_one a
      _ ≤ ⌊b⌋ := by omega
      _ ≤ pyRound b := floor_le_pyRound b
  · have hcast : ((⌊a⌋ : ℚ)) = ((⌊b⌋ : ℚ)) := by exact_mod_cast heq
    have hr : a - (⌊a⌋ : ℚ) ≤ b - (⌊b⌋ : ℚ) := by rw [hcast]; linarith
    unfold pyRound
    rw [heq]
    split_ifs <;> first | omega | linarith

theorem pyTrunc_zero : pyTrunc 0 = 0 := by
  unfold pyTrunc
  rw [if_pos le_rfl]
  exact Int.floor_zero

/-! ### List-access helpers -/

theorem getD_mem_or_eq_zero (l : List ℤ) (n : ℕ) :
    l.getD n 0 ∈ l ∨ l.getD n 0 = 0 := by
  by_cases h : n < l.length
  · rw [List.getD_eq_getElem _ _ h]
    exact Or.inl (l.getElem_mem h)
  · rw [List.getD_eq_default _ _ (by omega)]
    exact Or.inr rfl

theorem getD_set_self (l : List ℤ) {n : ℕ} (h : n < l.length) (v : ℤ) :
    (l.set n v).getD n 0 = v := by
  rw [List.getD_eq_getElem _ _ (by simpa using h)]
  exact List.getElem_set_self _

theorem getD_set_ne (l : List ℤ) {n m : ℕ} (h : m ≠ n) (v : ℤ) :
    (l.set n v).getD m 0 = l.getD m 0 := by
  by_cases hm : m < l.length
  · rw [List.getD_eq_getElem _ _ (by simpa using hm), List.getD_eq_getElem _ _ hm]
    exact List.getElem_set_of_ne (fun hx => h hx.symm) v _
  · rw [List.getD_eq_default _ _ (by simp; omega), List.getD_eq_default _ _ (by omega)]

theorem pyGet_eq_getD (l : List ℤ) {idx : ℤ} (h : 0 ≤ idx) :
    pyGet l idx = l.getD idx.toNat 0 := by
  unfold pyGet; rw [if_pos h]

theorem pyWrite_eq_set (l : List ℤ) {idx : ℤ} (h : 0 ≤ idx) (v : ℤ) :
    pyWrite l idx v = l.set idx.toNat v := by
  unfold pyWrite; rw [if_pos h]

theorem length_pyWrite (l : List ℤ) (idx v : ℤ) :
    (pyWrite l idx v).length = l.length := by
  unfold pyWrite; split_ifs <;> simp

theorem pyGet_pyWrite_self (l : List ℤ) {idx : ℤ} (h0 : 0 ≤ idx)
    (h1 : idx < l.length) (v : ℤ) : pyGet (pyWrite l idx v) idx = v := by
  rw [pyWrite_eq_set l h0, pyGet_eq_getD _ h0]
  exact getD_set_self l (by omega) v

theorem pyGet_pyWrite_ne (l : List ℤ) {idx j : ℤ} (h0 : 0 ≤ idx) (hj : 0 ≤ j)
    (hne : j ≠ idx) (v : ℤ) : pyGet (pyWrite l idx v) j = pyGet l j := by
  rw [pyWrite_eq_set l h0, pyGet_eq_getD _ hj, pyGet_eq_getD _ hj]
  exact getD_set_ne l (by omega) v

theorem mem_pyWrite {l : List ℤ} {idx v a : ℤ} (h : a ∈ pyWrite l idx v) :
    a ∈ l ∨ a = v := by
  unfold pyWrite at h
  split_ifs at h <;> exact List.mem_or_eq_of_mem_set h

/-! ### Facts about one fade step -/

theorem fadeStepAux_length (original value_arr : List ℤ) (n i : ℕ) :
    ∀ (ps : List (ℕ × ℤ)) (buf : List ℤ) (b : Bool),
      (fadeStepAux original value_arr n i ps buf b).1.length = buf.length := by
  intro ps
  induction ps with
  | nil => intro buf b; rfl
  | cons p rest ih =>
    intro buf b
    obtain ⟨x, c⟩ := p
    unfold fadeStepAux
    split_ifs with h
    · rw [ih, length_pyWrite]
    · exact ih buf b

theorem fadeStepAux_flag_true (original value_arr : List ℤ) (n i : ℕ) :
    ∀ (ps : List (ℕ × ℤ)) (buf : List ℤ),
      (fadeStepAux original value_arr n i ps buf true).2 = true := by
  intro ps
  induction ps with
  | nil => intro buf; rfl
  | cons p rest ih =>
    intro buf
    obtain ⟨x, c⟩ := p
    unfold fadeStepAux
    split_ifs with h <;> exact ih _

theorem fadeStepAux_of_forall_eq (original value_arr : List ℤ) (n i : ℕ) :
    ∀ (ps : List (ℕ × ℤ)) (buf : List ℤ) (b : Bool),
      (∀ p ∈ ps, nextValue original value_arr n i p.1 p.2 = pyGet buf (p.2 - 1)) →
      fadeStepAux original value_arr n i ps buf b = (buf, b) := by
  intro ps
  induction ps with
  | nil => intro buf b _; rfl
  | cons p rest ih =>
    intro buf b hall
    obtain ⟨x, c⟩ := p
    have hhead := hall (x, c) (List.mem_cons_self _ _)
    unfold fadeStepAux
    rw [if_neg (by simpa using hhead.symm)]
    exact ih buf b fun p hp => hall p (List.mem_cons_of_mem _ hp)

theorem fadeStepAux_true_of_exists (original value_arr : List ℤ) (n i : ℕ) :
    ∀ (ps : List (ℕ × ℤ)) (buf : List ℤ),
      (∃ p ∈ ps, nextValue original value_arr n i p.1 p.2 ≠ pyGet buf (p.2 - 1)) →
      (fadeStepAux original value_arr n i ps buf false).2 = true := by
  intro ps
  induction ps with
  | nil => rintro buf ⟨p, hp, _⟩; exact absurd hp (List.not_mem_nil p)
  | cons q rest ih =>
    intro buf hex
    obtain ⟨x, c⟩ := q
    unfold fadeStepAux
    split_ifs with h
    · exact fadeStepAux_flag_true original value_arr n i rest _
    · obtain ⟨p, hp, hne⟩ := hex
      rcases List.mem_cons.mp hp with heq | hmem
      · subst heq; exact absurd (not_not.mp h).symm hne
      · exact ih buf ⟨p, hmem, hne⟩

theorem fadeStepAux_flag_iff (original value_arr : List ℤ) (n i : ℕ)
    (ps : List (ℕ × ℤ)) (buf : List ℤ) :
    (fadeStepAux original value_arr n i ps buf false).2 = true ↔
      ∃ p ∈ ps, nextValue original value_arr n i p.1 p.2 ≠ pyGet buf (p.2 - 1) := by
  constructor
  · intro h
    by_contra hc
    push_neg at hc
    rw [fadeStepAux_of_forall_eq original value_arr n i ps buf false hc] at h
    exact Bool.false_ne_true h
  · exact fadeStepAux_true_of_exists original value_arr n i ps buf

theorem fadeStepAux_untouched (original value_arr : List ℤ) (n i : ℕ)
    (c : ℤ) (hc : 1 ≤ c) :
    ∀ (ps : List (ℕ × ℤ)) (buf : List ℤ) (b : Bool),
      (∀ p ∈ ps, 1 ≤ p.2 ∧ p.2 ≠ c) →
      pyGet (fadeStepAux original value_arr n i ps buf b).1 (c - 1) =
        pyGet buf (c - 1) := by
  intro ps
  induction ps with
  | nil => intro buf b _; rfl
  | cons q rest ih =>
    intro buf b hall
    obtain ⟨x, d⟩ := q
    have hd := hall (x, d) (List.mem_cons_self _ _)
    unfold fadeStepAux
    have hrest : ∀ p ∈ rest, 1 ≤ p.2 ∧ p.2 ≠ c :=
      fun p hp => hall p (List.mem_cons_of_mem _ hp)
    split_ifs with h
    · rw [ih _ _ hrest]
      exact pyGet_pyWrite_ne buf (by omega) (by omega) (by omega) _
    · exact ih buf b hrest

theorem fadeStepAux_sets (original value_arr : List ℤ) (n i : ℕ) :
    ∀ (ps : List (ℕ × ℤ)) (buf : List ℤ) (b : Bool),
      (ps.map Prod.snd).Nodup →
      (∀ p ∈ ps, 1 ≤ p.2 ∧ p.2 ≤ (buf.length : ℤ)) →
      ∀ p ∈ ps,
        pyGet (fadeStepAux original value_arr n i ps buf b).1 (p.2 - 1) =
          nextValue original value_arr n i p.1 p.2 := by
  intro ps
  induction ps with
  | nil => intro buf b _ _ p hp; exact absurd hp (List.not_mem_nil p)
  | cons q rest ih =>
    intro buf b hnd hbounds p hp
    obtain ⟨x, c⟩ := q
    have hqb := hbounds (x, c) (List.mem_cons_self _ _)
    have hndr : (rest.map Prod.snd).Nodup := (List.nodup_cons.mp (by simpa using hnd)).2
    have hcne : ∀ p ∈ rest, 1 ≤ p.2 ∧ p.2 ≠ c := by
      intro p hp'
      refine ⟨(hbounds p (List.mem_cons_of_mem _ hp')).1, ?_⟩
      intro hpc
      exact (List.nodup_cons.mp (by simpa using hnd)).1
        (hpc ▸ List.mem_map_of_mem Prod.snd hp')
    unfold fadeStepAux
    rcases List.mem_cons.mp hp with heq | hmem
    · subst heq
      split_ifs with h
      · rw [fadeStepAux_untouched original value_arr n i c (by omega) rest _ _ hcne]
        exact pyGet_pyWrite_self buf (by omega) (by omega) _
      · rw [fadeStepAux_untouched original value_arr n i c (by omega) rest _ _ hcne]
        exact not_not.mp h
    · have hrb : ∀ p ∈ rest, 1 ≤ p.2 ∧ p.2 ≤ ((pyWrite buf (c - 1)
          (nextValue original value_arr n i x c)).length : ℤ) := by
        intro p hp'
        rw [length_pyWrite]
        exact hbounds p (List.mem_cons_of_mem _ hp')
      split_ifs with h
      · exact ih _ _ hndr hrb p hmem
      · exact ih _ _ hndr (fun p hp' => hbounds p (List.mem_cons_of_mem _ hp')) p hmem

/-! ### Step- and trace-level facts about the fade loop -/

theorem nextValue_last (original value_arr : List ℤ) {n : ℕ} (hn : n ≠ 0)
    (x : ℕ) (channel : ℤ) :
    nextValue original value_arr n n x channel =
      value_arr.getD (min x (value_arr.length - 1)) 0 := by
  unfold nextValue
  have hq : (n : ℚ) ≠ 0 := Nat.cast_ne_zero.mpr hn
  rw [div_mul_cancel₀ _ hq]
  have harg : ((pyGet original (channel - 1) : ℚ) +
      ((value_arr.getD (min x (value_arr.length - 1)) 0 : ℚ) -
        (pyGet original (channel - 1) : ℚ))) =
      ((value_arr.getD (min x (value_arr.length - 1)) 0 : ℤ) : ℚ) := by ring
  rw [harg, pyRound_intCast]

theorem fadeStep_length (original value_arr channels : List ℤ) (n i : ℕ)
    (buf : List ℤ) :
    (fadeStep original value_arr channels n i buf).1.length = buf.length :=
  fadeStepAux_length original value_arr n i channels.enum buf false

theorem fadeStep_sets (original value_arr channels : List ℤ) (n i : ℕ)
    (buf : List ℤ) (hnd : channels.Nodup)
    (hb : ∀ c ∈ channels, 1 ≤ c ∧ c ≤ (buf.length : ℤ)) (x : Fin channels.length) :
    pyGet (fadeStep original value_arr channels n i buf).1 (channels.get x - 1) =
      nextValue original value_arr n i x.1 (channels.get x) := by
  have hmem : (x.1, channels.get x) ∈ channels.enum :=
    List.mem_enum_iff_getElem?.mpr (by simp [List.getElem?_eq_getElem, List.get_eq_getElem])
  have hnd' : (channels.enum.map Prod.snd).Nodup := by
    rw [List.enum_map_snd]; exact hnd
  have hb' : ∀ p ∈ channels.enum, 1 ≤ p.2 ∧ p.2 ≤ (buf.length : ℤ) := by
    intro p hp
    refine hb p.2 ?_
    rw [← List.enum_map_snd channels]
    exact List.mem_map_of_mem Prod.snd hp
  exact fadeStepAux_sets original value_arr n i channels.enum buf false hnd' hb'
    (x.1, channels.get x) hmem

theorem fadeTraceAux_length (original value_arr channels : List ℤ) (n : ℕ) :
    ∀ (k i : ℕ) (buf : List ℤ),
      (fadeTraceAux original value_arr channels n k i buf).length = k := by
  intro k
  induction k with
  | zero => intro i buf; rfl
  | succ k ih =>
    intro i buf
    unfold fadeTraceAux
    simp only [List.length_cons, ih]

theorem fadeTraceAux_getLastD (original value_arr channels : List ℤ) (n : ℕ) :
    ∀ (k i : ℕ) (buf d : List ℤ),
      ∃ B, B.length = buf.length ∧
        (fadeTraceAux original value_arr channels n (k + 1) i buf).getLastD d =
          (fadeStep original value_arr channels n (i + k) B).1 := by
  intro k
  induction k with
  | zero =>
    intro i buf d
    refine ⟨buf, rfl, ?_⟩
    simp [fadeTraceAux]
  | succ k ih =>
    intro i buf d
    obtain ⟨B, hB, hEq⟩ := ih (i + 1) (fadeStep original value_arr channels n i buf).1
      (fadeStep original value_arr channels n i buf).1
    refine ⟨B, ?_, ?_⟩
    · rw [hB, fadeStep_length]
    · show (fadeTraceAux original value_arr channels n (k + 2) i buf).getLastD d = _
      have hidx : i + 1 + k = i + (k + 1) := by omega
      rw [hidx] at hEq
      unfold fadeTraceAux
      rw [List.getLastD_cons]
      exact hEq

theorem fadeTraceAux_getLastD_of_pos (original value_arr channels : List ℤ)
    (n : ℕ) (k i : ℕ) (buf d : List ℤ) (hk : 1 ≤ k) :
    ∃ B, B.length = buf.length ∧
      (fadeTraceAux original value_arr channels n k i buf).getLastD d =
        (fadeStep original value_arr channels n (i + (k - 1)) B).1 := by
  obtain ⟨k', rfl⟩ : ∃ k', k = k' + 1 := ⟨k - 1, by omega⟩
  simpa using fadeTraceAux_getLastD original value_arr channels n k' i buf d

theorem numberOfFrames_pos (seconds fps : ℚ) : 1 ≤ numberOfFrames seconds fps :=
  le_max_right _ _

theorem numberOfFrames_zero (fps : ℚ) : numberOfFrames 0 fps = 1 := by
  unfold numberOfFrames
  rw [zero_mul, pyTrunc_zero]
  rfl

/-- The final buffer of a fade holds, at each listed channel, the value the
last step computed for it: the (normalized) target of that position. -/
theorem fade_channels_final_value (g : DMXGateway) (channels : List ℤ)
    (value : ℤ ⊕ List ℤ) (seconds fps : ℚ)
    (hnd : channels.Nodup)
    (hb : ∀ c ∈ channels, 1 ≤ c ∧ c ≤ (g.channels.length : ℤ))
    (x : Fin channels.length) :
    get_channel_level (fade_channels g channels value seconds fps) (channels.get x) =
      (toValueArr value).getD (min x.1 ((toValueArr value).length - 1)) 0 := by
  have hpos := numberOfFrames_pos seconds fps
  have hN : 1 ≤ (numberOfFrames seconds fps).toNat := by omega
  obtain ⟨B, hB, hEq⟩ := fadeTraceAux_getLastD_of_pos g.channels (toValueArr value)
    channels (numberOfFrames seconds fps).toNat (numberOfFrames seconds fps).toNat 1
    g.channels g.channels hN
  have hidx : 1 + ((numberOfFrames seconds fps).toNat - 1) =
      (numberOfFrames seconds fps).toNat := by omega
  rw [hidx] at hEq
  have hfinal : (fade_channels g channels value seconds fps).channels =
      (fadeStep g.channels (toValueArr value) channels
        (numberOfFrames seconds fps).toNat (numberOfFrames seconds fps).toNat B).1 := by
    show (fadeTrace g channels value seconds fps).getLastD g.channels = _
    unfold fadeTrace
    exact hEq
  have hb' : ∀ c ∈ channels, 1 ≤ c ∧ c ≤ (B.length : ℤ) := by
    intro c hc
    exact ⟨(hb c hc).1, by rw [hB]; exact (hb c hc).2⟩
  unfold get_channel_level
  rw [hfinal, fadeStep_sets g.channels (toValueArr value) channels _ _ B hnd hb' x,
    nextValue_last g.channels (toValueArr value) (by omega) x.1 (channels.get x)]

/-! ### Claim theorems -/

/-- C1: for every fade of a duplicate-free list of in-bounds channels
toward integer targets in `[0, 255]` with no other concurrent writer,
after the final step each listed channel's buffered value equals its
(normalized) target exactly: `get_channel_level` returns the target. -/
theorem fade_reaches_targets (g : DMXGateway) (channels : List ℤ)
    (value : ℤ ⊕ List ℤ) (seconds fps : ℚ)
    (hnd : channels.Nodup)
    (hb : ∀ c ∈ channels, 1 ≤ c ∧ c ≤ (g.channels.length : ℤ))
    (_hv : toValueArr value ≠ [])
    (_ht : ∀ t ∈ toValueArr value, 0 ≤ t ∧ t ≤ 255)
    (x : Fin channels.length) :
    get_channel_level (fade_channels g channels value seconds fps) (channels.get x) =
      (toValueArr value).getD (min x.1 ((toValueArr value).length - 1)) 0 :=
  fade_channels_final_value g channels value seconds fps hnd hb x

theorem fade_reaches_targets_witness :
    get_channel_level (fade_channels ⟨2, [0, 0]⟩ [1] (Sum.inl 200) 0 40) 1 = 200 := by
  have h := fade_reaches_targets ⟨2, [0, 0]⟩ [1] (Sum.inl 200) 0 40 (by decide)
    (by decide) (by decide) (by decide) ⟨0, by decide⟩
  simpa using h

/-- C2: `set_channel(index, value)` succeeds (returns `True` and writes
slot `index`) iff `1 ≤ index ≤ N` and `0 ≤ value ≤ 255`; on every other
input it returns `False` and the buffer is completely unchanged. -/
theorem set_channel_ok_iff (g : DMXGateway) (channel value : ℤ)
    (hlen : g.channels.length = g.numberOfChannels) :
    ((set_channel g channel value).2 = true ↔
      (1 ≤ channel ∧ channel ≤ (g.numberOfChannels : ℤ) ∧ 0 ≤ value ∧ value ≤ 255)) ∧
    ((1 ≤ channel ∧ channel ≤ (g.numberOfChannels : ℤ) ∧ 0 ≤ value ∧ value ≤ 255) →
      (set_channel g channel value).1.channels =
        g.channels.set (channel - 1).toNat value ∧
      get_channel_level (set_channel g channel value).1 channel = value) ∧
    (¬(1 ≤ channel ∧ channel ≤ (g.numberOfChannels : ℤ) ∧ 0 ≤ value ∧ value ≤ 255) →
      set_channel g channel value = (g, false)) := by
  unfold set_channel
  split_ifs with h
  · refine ⟨by simp [h], fun _ => ⟨rfl, ?_⟩, fun hc => absurd h hc⟩
    unfold get_channel_level
    simp only
    rw [pyGet_eq_getD _ (by omega)]
    exact getD_set_self g.channels (by omega) value
  · exact ⟨by simp [h], fun hc => absurd hc h, fun _ => rfl⟩

theorem set_channel_ok_iff_witness :
    ([0, 0] : List ℤ).length = (⟨2, [0, 0]⟩ : DMXGateway).numberOfChannels ∧
    (set_channel ⟨2, [0, 0]⟩ 1 7).2 = true ∧
    get_channel_level (set_channel ⟨2, [0, 0]⟩ 1 7).1 1 = 7 ∧
    set_channel ⟨2, [0, 0]⟩ 3 7 = (⟨2, [0, 0]⟩, false) :=
  ⟨by decide,
   ((set_channel_ok_iff ⟨2, [0, 0]⟩ 1 7 (by decide)).1).mpr (by decide),
   ((set_channel_ok_iff ⟨2, [0, 0]⟩ 1 7 (by decide)).2.1 (by decide)).2,
   (set_channel_ok_iff ⟨2, [0, 0]⟩ 3 7 (by decide)).2.2 (by decide)⟩

/-- C3 (code bug): for the requested channel count 513 — odd and greater
than 512 — the constructor produces `N = 513`, which is odd and exceeds
512, because the parity fix-up tests the requested count instead of the
capped one.  This contradicts the code's own comments ("Ensure number of
channels is within the universe", "Number of channels must be even"). -/
theorem init_channel_count_exceeds_512 :
    (DMXGateway.init 0 513).numberOfChannels = 513 ∧
    ¬((DMXGateway.init 0 513).numberOfChannels ≤ 512) ∧
    (DMXGateway.init 0 513).numberOfChannels % 2 = 1 ∧
    (DMXGateway.init 0 513).channels.length = 513 := by
  have hc : initChannelCount 513 = 513 := by decide
  refine ⟨hc, by rw [show (DMXGateway.init 0 513).numberOfChannels =
      initChannelCount 513 from rfl, hc]; omega, by rw [show (DMXGateway.init 0
      513).numberOfChannels = initChannelCount 513 from rfl, hc], ?_⟩
  show (List.replicate (initChannelCount 513) (0 : ℤ)).length = 513
  rw [List.length_replicate, hc]

/-- C4 counterexample: with `seconds = 3/2` and `fps = 1` (exact in
binary floating point, so the model is faithful), the fade executes
`max(int(3/2), 1) = 1` step, while the claimed formula
`max(round(3/2), 1)` gives 2 (Python's banker's rounding sends 1.5 to 2). -/
theorem frame_count_not_rounded :
    (fadeTrace ⟨2, [0, 0]⟩ [1] (Sum.inl 200) (3/2) 1).length = 1 ∧
    numberOfFramesSpec (3/2) 1 = 2 ∧
    numberOfFrames (3/2) 1 = 1 := by
  have hq : (3/2 : ℚ) * 1 = 3/2 := by norm_num
  have hf : ⌊(3/2 : ℚ)⌋ = 1 := by
    rw [Int.floor_eq_iff]
    norm_num
  have htr : pyTrunc ((3/2 : ℚ)) = 1 := by
    unfold pyTrunc
    rw [if_pos (by norm_num), hf]
  have hrnd : pyRound ((3/2 : ℚ)) = 2 := by
    unfold pyRound
    rw [hf]
    norm_num
  refine ⟨?_, ?_, ?_⟩
  · unfold fadeTrace
    rw [fadeTraceAux_length]
    unfold numberOfFrames
    rw [hq, htr]
    rfl
  · unfold numberOfFramesSpec
    rw [hq, hrnd]
    rfl
  · unfold numberOfFrames
    rw [hq, htr]
    rfl

/-- C4 (amended): the number of interpolation steps executed by a fade is
`max(int(durationSeconds * fps), 1)` where `int` truncates toward zero
(not `round`); in particular a zero-duration fade executes exactly one
step. -/
theorem fade_frame_count (g : DMXGateway) (channels : List ℤ)
    (value : ℤ ⊕ List ℤ) (seconds fps : ℚ) :
    (fadeTrace g channels value seconds fps).length =
      (max (pyTrunc (seconds * fps)) 1).toNat ∧
    (seconds = 0 → (fadeTrace g channels value seconds fps).length = 1) := by
  constructor
  · exact fadeTraceAux_length g.channels (toValueArr value) channels _ _ 1 g.channels
  · intro h
    subst h
    unfold fadeTrace
    rw [fadeTraceAux_length, numberOfFrames_zero]
    rfl

theorem fade_frame_count_witness :
    (fadeTrace ⟨2, [0, 0]⟩ [1] (Sum.inl 200) 0 40).length = 1 :=
  (fade_frame_count ⟨2, [0, 0]⟩ [1] (Sum.inl 200) 0 40).2 rfl

/-- C5: for every buffer state (with byte-valued channels, as the
invariant guarantees and `bytearray` requires), the frame serialized by
`send()` is exactly `18 + N` bytes: `"Art-Net\0"`, opcode `0x00 0x50`
(little-endian 0x5000), protocol version `0x00 0x0E`, four zero bytes
(sequence, physical, universe), the channel count `N` big-endian, then
the channel array in order. -/
theorem send_frame_layout (g : DMXGateway)
    (hlen : g.channels.length = g.numberOfChannels)
    (_hvals : inRange g.channels) :
    (serializeFrame g).length = 18 + g.numberOfChannels ∧
    (serializeFrame g).take 18 =
      [65, 114, 116, 45, 78, 101, 116, 0, 0, 0x50, 0, 0x0e, 0, 0, 0, 0,
       (g.numberOfChannels : ℤ) / 256, (g.numberOfChannels : ℤ) % 256] ∧
    (serializeFrame g).drop 18 = g.channels := by
  have hbp : (basePacket g.numberOfChannels).length = 18 := rfl
  refine ⟨?_, ?_, ?_⟩
  · unfold serializeFrame
    rw [List.length_append, hbp, hlen]
  · unfold serializeFrame
    rw [List.take_left' hbp]
    rfl
  · unfold serializeFrame
    rw [List.drop_left' hbp]

theorem send_frame_layout_witness :
    (serializeFrame (DMXGateway.init 0 512)).length =
      18 + (DMXGateway.init 0 512).numberOfChannels ∧
    (serializeFrame (DMXGateway.init 0 512)).take 18 =
      [65, 114, 116, 45, 78, 101, 116, 0, 0, 0x50, 0, 0x0e, 0, 0, 0, 0,
       ((DMXGateway.init 0 512).numberOfChannels : ℤ) / 256,
       ((DMXGateway.init 0 512).numberOfChannels : ℤ) % 256] ∧
    (serializeFrame (DMXGateway.init 0 512)).drop 18 =
      (DMXGateway.init 0 512).channels :=
  send_frame_layout (DMXGateway.init 0 512)
    (by simp [DMXGateway.init])
    (by intro v hv
        have hz := List.eq_of_mem_replicate hv
        subst hz
        norm_num)

/-- C7: in every step of a fade, `send()` is called at most once for the
whole step, and exactly once iff some listed channel's newly computed
value differs from its currently buffered value; a step in which no
tracked channel changes performs no send and leaves the buffer as it was. -/
theorem fade_step_send_iff (original value_arr channels : List ℤ) (n i : ℕ)
    (buf : List ℤ) :
    (fadeStep original value_arr channels n i buf).2 ≤ 1 ∧
    ((fadeStep original value_arr channels n i buf).2 = 1 ↔
      ∃ x : Fin channels.length,
        nextValue original value_arr n i x.1 (channels.get x) ≠
          pyGet buf (channels.get x - 1)) ∧
    ((fadeStep original value_arr channels n i buf).2 = 0 →
      (fadeStep original value_arr channels n i buf).1 = buf) := by
  have hiff := fadeStepAux_flag_iff original value_arr n i channels.enum buf
  have henum : ∀ p : ℕ × ℤ, p ∈ channels.enum ↔
      ∃ hx : p.1 < channels.length, channels.get ⟨p.1, hx⟩ = p.2 := by
    intro p
    rw [List.mem_enum_iff_getElem?]
    constructor
    · intro h
      have hlt : p.1 < channels.length := by
        by_contra hc
        rw [List.getElem?_eq_none (by omega)] at h
        exact Option.noConfusion h
      refine ⟨hlt, ?_⟩
      rw [List.getElem?_eq_getElem hlt] at h
      simpa [List.get_eq_getElem] using Option.some.inj h
    · rintro ⟨hx, hget⟩
      rw [List.getElem?_eq_getElem hx]
      simp [List.get_eq_getElem] at hget
      rw [hget]
  refine ⟨?_, ?_, ?_⟩
  · show (if (fadeStepAux original value_arr n i channels.enum buf false).2
        then 1 else 0) ≤ 1
    split_ifs <;> omega
  · show (if (fadeStepAux original value_arr n i channels.enum buf false).2
        then 1 else 0) = 1 ↔ _
    constructor
    · intro h
      have hflag : (fadeStepAux original value_arr n i channels.enum buf false).2 = true := by
        by_contra hc
        rw [if_neg hc] at h
        exact absurd h (by omega)
      obtain ⟨p, hp, hne⟩ := hiff.mp hflag
      obtain ⟨hx, hget⟩ := (henum p).mp hp
      exact ⟨⟨p.1, hx⟩, by rw [hget]; exact hne⟩
    · rintro ⟨x, hne⟩
      have hflag := hiff.mpr
        ⟨(x.1, channels.get x), (henum _).mpr ⟨x.2, rfl⟩, hne⟩
      rw [if_pos hflag]
  · show (if (fadeStepAux original value_arr n i channels.enum buf false).2
        then 1 else 0) = 0 → _
    intro h
    have hflag : (fadeStepAux original value_arr n i channels.enum buf false).2 = false := by
      by_contra hc
      rw [if_pos (by simpa using hc)] at h
      exact absurd h (by omega)
    have hall : ∀ p ∈ channels.enum,
        nextValue original value_arr n i p.1 p.2 = pyGet buf (p.2 - 1) := by
      intro p hp
      by_contra hc
      rw [hiff.mpr ⟨p, hp, hc⟩] at hflag
      exact Bool.noConfusion hflag
    show (fadeStepAux original value_arr n i channels.enum buf false).1 = buf
    rw [fadeStepAux_of_forall_eq original value_arr n i channels.enum buf false hall]

theorem nextValue_mono (original value_arr : List ℤ) (n : ℕ) (x : ℕ) (c : ℤ)
    (ht : pyGet original (c - 1) ≤ value_arr.getD (min x (value_arr.length - 1)) 0)
    {i j : ℕ} (hij : i ≤ j) :
    nextValue original value_arr n i x c ≤ nextValue original value_arr n j x c := by
  unfold nextValue
  apply pyRound_mono
  have hnn : (0 : ℚ) ≤ ((value_arr.getD (min x (value_arr.length - 1)) 0 : ℚ) -
      (pyGet original (c - 1) : ℚ)) / (n : ℚ) := by
    apply div_nonneg
    · exact sub_nonneg.mpr (by exact_mod_cast ht)
    · exact Nat.cast_nonneg n
  have hcast : ((i : ℚ)) ≤ (j : ℚ) := by exact_mod_cast hij
  have := mul_le_mul_of_nonneg_left hcast hnn
  linarith

theorem fadeStep_single_value (original : List ℤ) (t : ℤ) (n i : ℕ) (c : ℤ)
    (hc1 : 1 ≤ c) (B : List ℤ) (hB : c ≤ (B.length : ℤ)) :
    pyGet (fadeStep original [t] [c] n i B).1 (c - 1) =
      nextValue original [t] n i 0 c := by
  have h := fadeStep_sets original [t] [c] n i B (by simp)
    (by intro d hd
        rw [List.mem_singleton] at hd
        subst hd
        exact ⟨hc1, hB⟩) ⟨0, by simp⟩
  simpa using h

theorem fadeTrace_single_chain (original : List ℤ) (t : ℤ) (n : ℕ) (c : ℤ)
    (hc1 : 1 ≤ c) (hts : pyGet original (c - 1) ≤ t) :
    ∀ (k i : ℕ) (B : List ℤ), c ≤ (B.length : ℤ) →
      List.Chain' (· ≤ ·)
        ((fadeTraceAux original [t] [c] n k i B).map fun b => pyGet b (c - 1)) := by
  have htarget : ∀ x : ℕ, pyGet original (c - 1) ≤
      ([t].getD (min x ([t].length - 1)) 0) := by
    intro x
    simpa using hts
  intro k
  induction k with
  | zero => intro i B _; exact List.chain'_nil
  | succ k ih =>
    intro i B hB
    unfold fadeTraceAux
    rw [List.map_cons]
    rw [List.chain'_cons']
    have hB' : c ≤ (((fadeStep original [t] [c] n i B).1).length : ℤ) := by
      rw [fadeStep_length]; exact hB
    refine ⟨?_, ih (i + 1) _ hB'⟩
    intro y hy
    cases k with
    | zero => simp [fadeTraceAux] at hy
    | succ k' =>
      unfold fadeTraceAux at hy
      rw [List.map_cons, List.head?_cons] at hy
      have hy' : y = pyGet (fadeStep original [t] [c] n (i + 1)
          (fadeStep original [t] [c] n i B).1).1 (c - 1) := by
        simpa using hy.symm
      rw [hy', fadeStep_single_value original t n i c hc1 B hB,
        fadeStep_single_value original t n (i + 1) c hc1 _ hB']
      exact nextValue_mono original [t] n 0 c (htarget 0) (by omega)

/-- C8: for a single upward fade of one channel (target at least the
channel's start value) with no concurrent writer, the per-step buffered
values of that channel are non-decreasing, the fade ends exactly at the
target, and the number of steps is `number_of_frames`; instantiating at
`fade([1], 200, 1, 40)` from value 0 gives exactly 40 steps ending at 200. -/
theorem fade_single_upward_monotone (g : DMXGateway) (c t : ℤ) (seconds fps : ℚ)
    (hc1 : 1 ≤ c) (hc2 : c ≤ (g.channels.length : ℤ))
    (hts : get_channel_level g c ≤ t) :
    List.Chain' (· ≤ ·)
      ((fadeTrace g [c] (Sum.inl t) seconds fps).map fun b => pyGet b (c - 1)) ∧
    get_channel_level (fade_channels g [c] (Sum.inl t) seconds fps) c = t ∧
    (fadeTrace g [c] (Sum.inl t) seconds fps).length =
      (numberOfFrames seconds fps).toNat := by
  refine ⟨?_, ?_, ?_⟩
  · unfold fadeTrace
    exact fadeTrace_single_chain g.channels t _ c hc1 hts _ 1 g.channels hc2
  · have h := fade_channels_final_value g [c] (Sum.inl t) seconds fps (by simp)
      (by intro d hd
          rw [List.mem_singleton] at hd
          subst hd
          exact ⟨hc1, hc2⟩) ⟨0, by simp⟩
    simpa using h
  · exact fadeTraceAux_length g.channels [t] [c] _ _ 1 g.channels

theorem fade_single_upward_monotone_witness :
    List.Chain' (· ≤ ·)
      ((fadeTrace ⟨2, [0, 0]⟩ [1] (Sum.inl 200) 1 40).map fun b => pyGet b (1 - 1)) ∧
    get_channel_level (fade_channels ⟨2, [0, 0]⟩ [1] (Sum.inl 200) 1 40) 1 = 200 ∧
    (fadeTrace ⟨2, [0, 0]⟩ [1] (Sum.inl 200) 1 40).length = 40 := by
  have h := fade_single_upward_monotone ⟨2, [0, 0]⟩ 1 200 1 40 (by norm_num)
    (by norm_num) (by decide)
  have hforty : (numberOfFrames 1 40).toNat = 40 := by
    have h40 : (1 : ℚ) * 40 = ((40 : ℤ) : ℚ) := by norm_num
    unfold numberOfFrames pyTrunc
    rw [h40, if_pos (by norm_num), Int.floor_intCast]
    rfl
  exact ⟨h.1, h.2.1, by rw [h.2.2, hforty]⟩

/-! ### Range invariant -/

theorem getD_range {l : List ℤ} (h : inRange l) (k : ℕ) :
    0 ≤ l.getD k 0 ∧ l.getD k 0 ≤ 255 := by
  rcases getD_mem_or_eq_zero l k with hm | hz
  · exact h _ hm
  · rw [hz]; exact ⟨le_refl 0, by omega⟩

theorem pyGet_range {l : List ℤ} (h : inRange l) (idx : ℤ) :
    0 ≤ pyGet l idx ∧ pyGet l idx ≤ 255 := by
  unfold pyGet
  split_ifs
  · exact getD_range h _
  · exact getD_range h _

theorem pyGet_mem (l : List ℤ) {idx : ℤ} (h0 : 0 ≤ idx)
    (h1 : idx < (l.length : ℤ)) : pyGet l idx ∈ l := by
  rw [pyGet_eq_getD l h0, List.getD_eq_getElem _ _ (by omega)]
  exact l.getElem_mem _

theorem nextValue_range (original value_arr : List ℤ) {n i : ℕ}
    (hn : 1 ≤ n) (hi : i ≤ n) (horig : inRange original)
    (hval : inRange value_arr) (x : ℕ) (c : ℤ) :
    0 ≤ nextValue original value_arr n i x c ∧
      nextValue original value_arr n i x c ≤ 255 := by
  have ho := pyGet_range horig (c - 1)
  have hT := getD_range hval (min x (value_arr.length - 1))
  unfold nextValue
  have hr0 : (0 : ℚ) ≤ (i : ℚ) / (n : ℚ) :=
    div_nonneg (Nat.cast_nonneg i) (Nat.cast_nonneg n)
  have hr1 : (i : ℚ) / (n : ℚ) ≤ 1 := by
    rw [div_le_one (by exact_mod_cast Nat.lt_of_lt_of_le Nat.zero_lt_one hn)]
    exact_mod_cast hi
  have hq : ((pyGet original (c - 1) : ℚ) +
      ((value_arr.getD (min x (value_arr.length - 1)) 0 : ℚ) -
        (pyGet original (c - 1) : ℚ)) / (n : ℚ) * (i : ℚ)) =
      (pyGet original (c - 1) : ℚ) +
      ((value_arr.getD (min x (value_arr.length - 1)) 0 : ℚ) -
        (pyGet original (c - 1) : ℚ)) * ((i : ℚ) / (n : ℚ)) := by
    ring
  rw [hq]
  have hoQ0 : (0 : ℚ) ≤ (pyGet original (c - 1) : ℚ) := by exact_mod_cast ho.1
  have hoQ255 : (pyGet original (c - 1) : ℚ) ≤ 255 := by exact_mod_cast ho.2
  have hTQ0 : (0 : ℚ) ≤ (value_arr.getD (min x (value_arr.length - 1)) 0 : ℚ) := by
    exact_mod_cast hT.1
  have hTQ255 : (value_arr.getD (min x (value_arr.length - 1)) 0 : ℚ) ≤ 255 := by
    exact_mod_cast hT.2
  constructor
  · apply le_pyRound_of_le
    push_cast
    rcases le_total (pyGet original (c - 1) : ℚ)
      (value_arr.getD (min x (value_arr.length - 1)) 0 : ℚ) with hle | hle
    · nlinarith [mul_nonneg (sub_nonneg.mpr hle) hr0]
    · nlinarith [mul_nonneg (sub_nonneg.mpr hle) (sub_nonneg.mpr hr1)]
  · apply pyRound_le_of_le
    push_cast
    rcases le_total (pyGet original (c - 1) : ℚ)
      (value_arr.getD (min x (value_arr.length - 1)) 0 : ℚ) with hle | hle
    · nlinarith [mul_nonneg (sub_nonneg.mpr hle) (sub_nonneg.mpr hr1)]
    · nlinarith [mul_nonneg (sub_nonneg.mpr hle) hr0]

theorem fadeStepAux_inRange (original value_arr : List ℤ) {n i : ℕ}
    (hn : 1 ≤ n) (hi : i ≤ n) (horig : inRange original)
    (hval : inRange value_arr) :
    ∀ (ps : List (ℕ × ℤ)) (buf : List ℤ) (b : Bool), inRange buf →
      inRange (fadeStepAux original value_arr n i ps buf b).1 := by
  intro ps
  induction ps with
  | nil => intro buf b h; exact h
  | cons q rest ih =>
    intro buf b hbuf
    obtain ⟨x, c⟩ := q
    unfold fadeStepAux
    split_ifs with h
    · apply ih
      intro v hv
      rcases mem_pyWrite hv with hm | he
      · exact hbuf v hm
      · rw [he]
        exact nextValue_range original value_arr hn hi horig hval x c
    · exact ih buf b hbuf

theorem fadeTraceAux_inRange (original value_arr channels : List ℤ) {n : ℕ}
    (hn : 1 ≤ n) (horig : inRange original) (hval : inRange value_arr) :
    ∀ (k i : ℕ) (buf : List ℤ), inRange buf → i + k ≤ n + 1 →
      ∀ B ∈ fadeTraceAux original value_arr channels n k i buf, inRange B := by
  intro k
  induction k with
  | zero => intro i buf _ _ B hB; exact absurd hB (List.not_mem_nil B)
  | succ k ih =>
    intro i buf hbuf hin B hB
    have hstep : inRange (fadeStep original value_arr channels n i buf).1 :=
      fadeStepAux_inRange original value_arr hn (by omega) horig hval
        channels.enum buf false hbuf
    unfold fadeTraceAux at hB
    rcases List.mem_cons.mp hB with heq | hmem
    · rw [heq]; exact hstep
    · exact ih (i + 1) _ hstep (by omega) B hmem

theorem fadeTraceAux_mem_length (original value_arr channels : List ℤ) (n : ℕ) :
    ∀ (k i : ℕ) (buf B : List ℤ),
      B ∈ fadeTraceAux original value_arr channels n k i buf →
      B.length = buf.length := by
  intro k
  induction k with
  | zero => intro i buf B hB; exact absurd hB (List.not_mem_nil B)
  | succ k ih =>
    intro i buf B hB
    unfold fadeTraceAux at hB
    rcases List.mem_cons.mp hB with heq | hmem
    · rw [heq, fadeStep_length]
    · rw [ih (i + 1) _ B hmem, fadeStep_length]

theorem getLastD_cons_mem {α : Type _} :
    ∀ (l : List α) (a d : α), (a :: l).getLastD d ∈ a :: l := by
  intro l
  induction l with
  | nil => intro a d; rw [List.getLastD_cons, List.getLastD_nil]; exact List.mem_singleton_self a
  | cons b l' ih =>
    intro a d
    rw [List.getLastD_cons]
    exact List.mem_cons_of_mem a (ih b a)

theorem fade_channels_length (g : DMXGateway) (channels : List ℤ)
    (value : ℤ ⊕ List ℤ) (seconds fps : ℚ) :
    (fade_channels g channels value seconds fps).channels.length =
      g.channels.length := by
  show ((fadeTrace g channels value seconds fps).getLastD g.channels).length = _
  cases htr : fadeTrace g channels value seconds fps with
  | nil => rfl
  | cons hd tl =>
    have hmem := getLastD_cons_mem tl hd g.channels
    unfold fadeTrace at htr
    have hmem' : (hd :: tl).getLastD g.channels ∈
        fadeTraceAux g.channels (toValueArr value) channels
          (numberOfFrames seconds fps).toNat (numberOfFrames seconds fps).toNat 1
          g.channels := by
      rw [htr]; exact hmem
    exact fadeTraceAux_mem_length g.channels (toValueArr value) channels _ _ 1
      g.channels _ hmem'

theorem fade_channels_inRange (g : DMXGateway) (channels : List ℤ)
    (value : ℤ ⊕ List ℤ) (seconds fps : ℚ)
    (hg : inRange g.channels) (hval : inRange (toValueArr value)) :
    inRange (fade_channels g channels value seconds fps).channels := by
  have hN : 1 ≤ (numberOfFrames seconds fps).toNat := by
    have := numberOfFrames_pos seconds fps
    omega
  show inRange ((fadeTrace g channels value seconds fps).getLastD g.channels)
  cases htr : fadeTrace g channels value seconds fps with
  | nil => exact hg
  | cons hd tl =>
    have hmem := getLastD_cons_mem tl hd g.channels
    unfold fadeTrace at htr
    have hmem' : (hd :: tl).getLastD g.channels ∈
        fadeTraceAux g.channels (toValueArr value) channels
          (numberOfFrames seconds fps).toNat (numberOfFrames seconds fps).toNat 1
          g.channels := by
      rw [htr]; exact hmem
    exact fadeTraceAux_inRange g.channels (toValueArr value) channels hN hg hval
      ((numberOfFrames seconds fps).toNat) 1 g.channels hg (by omega) _ hmem'

theorem set_channel_inRange (g : DMXGateway) (channel value : ℤ)
    (hg : inRange g.channels) :
    inRange (set_channel g channel value).1.channels := by
  unfold set_channel
  split_ifs with h
  · intro v hv
    rcases List.mem_or_eq_of_mem_set hv with hm | he
    · exact hg v hm
    · rw [he]; exact ⟨h.2.2.1, h.2.2.2⟩
  · exact hg

theorem set_channel_rgb_loop_inRange (n : ℕ) (channel : ℤ) :
    ∀ (values : List ℤ) (i : ℤ) (buf buf' : List ℤ), inRange buf →
      set_channel_rgb_loop n channel values i buf = some buf' → inRange buf' := by
  intro values
  induction values with
  | nil =>
    intro i buf buf' hbuf heq
    rw [show set_channel_rgb_loop n channel [] i buf = some buf from rfl] at heq
    rw [← Option.some.inj heq]
    exact hbuf
  | cons v rest ih =>
    intro i buf buf' hbuf heq
    unfold set_channel_rgb_loop at heq
    split_ifs at heq with hcond
    · cases hset : pyListSet buf (channel - 1 + i) v with
      | none => rw [hset] at heq; exact Option.noConfusion heq
      | some buf₁ =>
        rw [hset] at heq
        have hbuf₁ : inRange buf₁ := by
          unfold pyListSet at hset
          split_ifs at hset <;>
          · rw [← Option.some.inj hset]
            intro w hw
            rcases List.mem_or_eq_of_mem_set hw with hm | he
            · exact hbuf w hm
            · rw [he]; exact ⟨hcond.2.1, hcond.2.2⟩
        exact ih (i + 1) buf₁ buf' hbuf₁ heq
    · exact ih (i + 1) buf buf' hbuf heq

theorem set_channel_rgb_inRange (g : DMXGateway) (channel : ℤ)
    (values : List ℤ) (g' : DMXGateway) (b : Bool)
    (hg : inRange g.channels)
    (heq : set_channel_rgb g channel values = some (g', b)) :
    inRange g'.channels := by
  unfold set_channel_rgb at heq
  cases hloop : set_channel_rgb_loop g.numberOfChannels channel values 0 g.channels with
  | none => rw [hloop] at heq; exact Option.noConfusion heq
  | some buf' =>
    rw [hloop] at heq
    have hpair : ({ g with channels := buf' }, true) = (g', b) :=
      Option.some.inj heq
    have hg' : { g with channels := buf' } = g' := congrArg Prod.fst hpair
    rw [← hg']
    exact set_channel_rgb_loop_inRange g.numberOfChannels channel values 0
      g.channels buf' hg hloop

/-- C6 counterexample: starting from the in-range buffer `[0, 0]`, the
fade `fade_channels([1], 256, 0)` writes 256 into channel 1 — fade
targets are not validated, so a fade write request outside `[0, 255]` is
*not* rejected and the buffer leaves the claimed range. -/
theorem fade_breaks_range_invariant :
    inRange ([0, 0] : List ℤ) ∧
    get_channel_level (fade_channels ⟨2, [0, 0]⟩ [1] (Sum.inl 256) 0 40) 1 = 256 ∧
    ¬ inRange (fade_channels ⟨2, [0, 0]⟩ [1] (Sum.inl 256) 0 40).channels := by
  have h := fade_channels_final_value ⟨2, [0, 0]⟩ [1] (Sum.inl 256) 0 40 (by decide)
    (by decide) ⟨0, by decide⟩
  have hv : get_channel_level (fade_channels ⟨2, [0, 0]⟩ [1] (Sum.inl 256) 0 40) 1
      = 256 := by simpa using h
  refine ⟨by decide, hv, ?_⟩
  intro hc
  have hlen : (fade_channels ⟨2, [0, 0]⟩ [1] (Sum.inl 256) 0 40).channels.length = 2 :=
    fade_channels_length _ _ _ _ _
  have hmem : get_channel_level (fade_channels ⟨2, [0, 0]⟩ [1] (Sum.inl 256) 0 40) 1 ∈
      (fade_channels ⟨2, [0, 0]⟩ [1] (Sum.inl 256) 0 40).channels := by
    unfold get_channel_level
    exact pyGet_mem _ (by norm_num) (by rw [hlen]; norm_num)
  have hr := hc _ hmem
  rw [hv] at hr
  omega

/-- C6 (amended): starting from a buffer whose every element is in
`[0, 255]`, the buffer stays in range after `set_channel` and
`set_channel_rgb` (both reject out-of-range values without clamping), and
after any `fade_channels` whose targets are themselves in `[0, 255]`;
`fade_channels` performs no validation of its targets, so a fade toward an
out-of-range target can leave the range (see the counterexample). -/
theorem buffer_range_invariant (g : DMXGateway) (hg : inRange g.channels) :
    (∀ channel value : ℤ, inRange (set_channel g channel value).1.channels) ∧
    (∀ (channel : ℤ) (values : List ℤ) (g' : DMXGateway) (b : Bool),
      set_channel_rgb g channel values = some (g', b) → inRange g'.channels) ∧
    (∀ (channels : List ℤ) (value : ℤ ⊕ List ℤ) (seconds fps : ℚ),
      inRange (toValueArr value) →
      inRange (fade_channels g channels value seconds fps).channels) :=
  ⟨fun channel value => set_channel_inRange g channel value hg,
   fun channel values g' b heq =>
     set_channel_rgb_inRange g channel values g' b hg heq,
   fun channels value seconds fps hval =>
     fade_channels_inRange g channels value seconds fps hg hval⟩

theorem buffer_range_invariant_witness :
    inRange (set_channel ⟨2, [0, 0]⟩ 1 7).1.channels ∧
    inRange (fade_channels ⟨2, [0, 0]⟩ [1] (Sum.inl 200) 0 40).channels :=
  ⟨(buffer_range_invariant ⟨2, [0, 0]⟩ (by decide)).1 1 7,
   (buffer_range_invariant ⟨2, [0, 0]⟩ (by decide)).2.2 [1] (Sum.inl 200) 0 40
     (by decide)⟩

/-! ### Characterization of `set_channel_rgb` -/

theorem set_channel_rgb_loop_spec (n : ℕ) (channel : ℤ) (h1 : 1 ≤ channel) :
    ∀ (values : List ℤ) (i : ℤ) (buf : List ℤ), 0 ≤ i → buf.length = n →
      ∃ buf', set_channel_rgb_loop n channel values i buf = some buf' ∧
        buf'.length = n ∧
        ∀ j : ℕ, j < n →
          buf'.getD j 0 =
            if 0 ≤ (j : ℤ) - (channel - 1 + i) ∧
               (j : ℤ) - (channel - 1 + i) < (values.length : ℤ) ∧
               0 ≤ values.getD ((j : ℤ) - (channel - 1 + i)).toNat 0 ∧
               values.getD ((j : ℤ) - (channel - 1 + i)).toNat 0 ≤ 255
            then values.getD ((j : ℤ) - (channel - 1 + i)).toNat 0
            else buf.getD j 0 := by
  intro values
  induction values with
  | nil =>
    intro i buf hi hlen
    refine ⟨buf, rfl, hlen, ?_⟩
    intro j hj
    rw [if_neg]
    rintro ⟨hA, hB, -⟩
    rw [List.length_nil] at hB
    omega
  | cons v rest ih =>
    intro i buf hi hlen
    unfold set_channel_rgb_loop
    split_ifs with hcond
    · have hidx0 : (0 : ℤ) ≤ channel - 1 + i := by omega
      have hidxlt : channel - 1 + i < (buf.length : ℤ) := by
        rw [hlen]
        omega
      have hset : pyListSet buf (channel - 1 + i) v =
          some (buf.set (channel - 1 + i).toNat v) := by
        unfold pyListSet
        rw [if_pos ⟨hidx0, hidxlt⟩]
      rw [hset]
      obtain ⟨buf', hbuf', hlen', hval⟩ := ih (i + 1)
        (buf.set (channel - 1 + i).toNat v) (by omega)
        (by rw [List.length_set]; exact hlen)
      refine ⟨buf', hbuf', hlen', ?_⟩
      intro j hj
      have hvj := hval j hj
      have hsh : (j : ℤ) - (channel - 1 + (i + 1)) =
          ((j : ℤ) - (channel - 1 + i)) - 1 := by ring
      rw [hsh] at hvj
      by_cases hk0 : (j : ℤ) - (channel - 1 + i) = 0
      · have hjeq : (channel - 1 + i).toNat = j := by omega
        rw [if_neg (by rintro ⟨hA, -⟩; omega)] at hvj
        have hkt : ((j : ℤ) - (channel - 1 + i)).toNat = 0 := by omega
        rw [hkt, List.getD_cons_zero]
        rw [if_pos ⟨by omega, by rw [List.length_cons]; push_cast; omega,
          hcond.2.1, hcond.2.2⟩]
        rw [hvj, hjeq]
        exact getD_set_self buf (by omega) v
      · by_cases hkneg : (j : ℤ) - (channel - 1 + i) < 0
        · rw [if_neg (by rintro ⟨hA, -⟩; omega)] at hvj
          rw [if_neg (by rintro ⟨hA, -⟩; omega)]
          rw [hvj]
          exact getD_set_ne buf (by omega) v
        · have hk1 : 1 ≤ (j : ℤ) - (channel - 1 + i) := by omega
          have htn : ((j : ℤ) - (channel - 1 + i)).toNat =
              ((j : ℤ) - (channel - 1 + i) - 1).toNat + 1 := by omega
          rw [htn, List.getD_cons_succ]
          by_cases hc2 : 0 ≤ (j : ℤ) - (channel - 1 + i) - 1 ∧
              (j : ℤ) - (channel - 1 + i) - 1 < (rest.length : ℤ) ∧
              0 ≤ rest.getD ((j : ℤ) - (channel - 1 + i) - 1).toNat 0 ∧
              rest.getD ((j : ℤ) - (channel - 1 + i) - 1).toNat 0 ≤ 255
          · rw [if_pos hc2] at hvj
            rw [if_pos ⟨by omega,
              by rw [List.length_cons]; push_cast; have := hc2.2.1; omega,
              hc2.2.2.1, hc2.2.2.2⟩]
            exact hvj
          · rw [if_neg hc2] at hvj
            rw [if_neg (by
              rintro ⟨hA, hB, hC, hD⟩
              rw [List.length_cons] at hB
              push_cast at hB
              exact hc2 ⟨by omega, by omega, hC, hD⟩)]
            rw [hvj]
            exact getD_set_ne buf (by omega) v
    · obtain ⟨buf', hbuf', hlen', hval⟩ := ih (i + 1) buf (by omega) hlen
      refine ⟨buf', hbuf', hlen', ?_⟩
      intro j hj
      have hvj := hval j hj
      have hsh : (j : ℤ) - (channel - 1 + (i + 1)) =
          ((j : ℤ) - (channel - 1 + i)) - 1 := by ring
      rw [hsh] at hvj
      by_cases hk0 : (j : ℤ) - (channel - 1 + i) = 0
      · have hchan : channel + i ≤ (n : ℤ) := by omega
        have hvrange : ¬(0 ≤ v ∧ v ≤ 255) := by
          intro hv
          exact hcond ⟨hchan, hv.1, hv.2⟩
        rw [if_neg (by rintro ⟨hA, -⟩; omega)] at hvj
        have hkt : ((j : ℤ) - (channel - 1 + i)).toNat = 0 := by omega
        rw [hkt, List.getD_cons_zero]
        rw [if_neg (by rintro ⟨-, -, hC, hD⟩; exact hvrange ⟨hC, hD⟩)]
        exact hvj
      · by_cases hkneg : (j : ℤ) - (channel - 1 + i) < 0
        · rw [if_neg (by rintro ⟨hA, -⟩; omega)] at hvj
          rw [if_neg (by rintro ⟨hA, -⟩; omega)]
          exact hvj
        · have hk1 : 1 ≤ (j : ℤ) - (channel - 1 + i) := by omega
          have htn : ((j : ℤ) - (channel - 1 + i)).toNat =
              ((j : ℤ) - (channel - 1 + i) - 1).toNat + 1 := by omega
          rw [htn, List.getD_cons_succ]
          by_cases hc2 : 0 ≤ (j : ℤ) - (channel - 1 + i) - 1 ∧
              (j : ℤ) - (channel - 1 + i) - 1 < (rest.length : ℤ) ∧
              0 ≤ rest.getD ((j : ℤ) - (channel - 1 + i) - 1).toNat 0 ∧
              rest.getD ((j : ℤ) - (channel - 1 + i) - 1).toNat 0 ≤ 255
          · rw [if_pos hc2] at hvj
            rw [if_pos ⟨by omega,
              by rw [List.length_cons]; push_cast; have := hc2.2.1; omega,
              hc2.2.2.1, hc2.2.2.2⟩]
            exact hvj
          · rw [if_neg hc2] at hvj
            rw [if_neg (by
              rintro ⟨hA, hB, hC, hD⟩
              rw [List.length_cons] at hB
              push_cast at hB
              exact hc2 ⟨by omega, by omega, hC, hD⟩)]
            exact hvj

/-- C9 counterexample: on a 2-channel buffer `[0, 0]`, the call
`set_channel_rgb(0, [5])` has its single element qualify under the
claim's conditions (`0 + 0 ≤ N` and `0 ≤ 5 ≤ 255`), yet nothing is
written to "slot 0"; instead Python's negative indexing wraps
`channels[-1]` and channel 2 — not of the form `startIndex + i` — changes
from 0 to 5, so "all other channels are unchanged" fails. -/
theorem set_channel_rgb_wraps_counterexample :
    set_channel_rgb ⟨2, [0, 0]⟩ 0 [5] = some (⟨2, [0, 5]⟩, true) ∧
    ((0 : ℤ) + 0 ≤ 2 ∧ (0 : ℤ) ≤ 5 ∧ (5 : ℤ) ≤ 255) ∧
    (0 : ℤ) + 0 ≠ 2 ∧
    get_channel_level ⟨2, [0, 5]⟩ 2 = 5 ∧
    get_channel_level ⟨2, [0, 0]⟩ 2 = 0 := by decide

/-- C9 (amended): for every batched group write with `startIndex ≥ 1` —
the domain on which the 1-based slots `startIndex + i` exist; for smaller
start indices Python's negative indexing wraps to the end of the buffer
or raises `IndexError` — each `values[i]` is written to slot
`startIndex + i` exactly when `startIndex + i ≤ N` and
`0 ≤ values[i] ≤ 255`; elements violating either condition are skipped
without aborting the call, and every channel not so written is unchanged. -/
theorem set_channel_rgb_spec (g : DMXGateway) (channel : ℤ) (values : List ℤ)
    (h1 : 1 ≤ channel) (hlen : g.channels.length = g.numberOfChannels) :
    ∃ g', set_channel_rgb g channel values = some (g', true) ∧
      g'.channels.length = g.channels.length ∧
      (∀ i : ℕ, i < values.length → channel + i ≤ (g.numberOfChannels : ℤ) →
        0 ≤ values.getD i 0 → values.getD i 0 ≤ 255 →
        g'.channels.getD (channel - 1 + i).toNat 0 = values.getD i 0) ∧
      (∀ j : ℕ, j < g.channels.length →
        (∀ i : ℕ, i < values.length →
          (j : ℤ) ≠ channel - 1 + i ∨
            ¬(0 ≤ values.getD i 0 ∧ values.getD i 0 ≤ 255)) →
        g'.channels.getD j 0 = g.channels.getD j 0) := by
  obtain ⟨buf', hbuf', hblen, hval⟩ := set_channel_rgb_loop_spec g.numberOfChannels
    channel h1 values 0 g.channels (le_refl 0) hlen
  refine ⟨{ g with channels := buf' }, ?_, ?_, ?_, ?_⟩
  · unfold set_channel_rgb
    rw [hbuf']
    rfl
  · rw [hblen, hlen]
  · intro i hi hN hv0 hv255
    have hj : (channel - 1 + (i : ℤ)).toNat < g.numberOfChannels := by omega
    have hchar := hval (channel - 1 + (i : ℤ)).toNat hj
    have hk : (((channel - 1 + (i : ℤ)).toNat : ℕ) : ℤ) - (channel - 1 + 0) =
        (i : ℤ) := by omega
    rw [hk] at hchar
    rw [Int.toNat_natCast] at hchar
    rw [if_pos ⟨Int.natCast_nonneg i, by exact_mod_cast hi, hv0, hv255⟩] at hchar
    exact hchar
  · intro j hj hnone
    have hchar := hval j (by omega)
    rw [if_neg ?_] at hchar
    · exact hchar
    rintro ⟨hA, hB, hC, hD⟩
    have hi' : (((((j : ℤ) - (channel - 1 + 0)).toNat : ℕ)) : ℤ) =
        (j : ℤ) - (channel - 1 + 0) := Int.toNat_of_nonneg hA
    have hilt : ((j : ℤ) - (channel - 1 + 0)).toNat < values.length := by omega
    rcases hnone ((j : ℤ) - (channel - 1 + 0)).toNat hilt with hne | hnr
    · exact hne (by omega)
    · exact hnr ⟨hC, hD⟩

theorem set_channel_rgb_spec_witness :
    ∃ g' : DMXGateway, set_channel_rgb ⟨2, [0, 0]⟩ 1 [7] = some (g', true) ∧
      g'.channels.getD 0 0 = 7 := by
  obtain ⟨g', heq, -, happ, -⟩ := set_channel_rgb_spec ⟨2, [0, 0]⟩ 1 [7]
    (by decide) (by decide)
  refine ⟨g', heq, ?_⟩
  have h := happ 0 (by decide) (by decide) (by decide) (by decide)
  simpa using h

/-- C10 counterexample: `set_channel_rgb(-5, [0])` on a 2-channel buffer
does not return `True` — the qualifying element leads to the assignment
`channels[-6]`, which raises `IndexError` (modelled as `none`), so the
claim's "for every input it returns True" fails. -/
theorem set_channel_rgb_index_error :
    set_channel_rgb ⟨2, [0, 0]⟩ (-5) [0] = none := by decide

/-- C10 (amended): `set_channel_rgb` never returns `False`: on every
input with `startIndex ≥ 1` (in particular on every call that returns at
all rather than raising `IndexError` on a negative start index) it
returns `True`, even when every supplied value is skipped and no channel
is mutated. -/
theorem set_channel_rgb_always_true (g : DMXGateway) (channel : ℤ)
    (values : List ℤ) (h1 : 1 ≤ channel)
    (hlen : g.channels.length = g.numberOfChannels) :
    ∃ g', set_channel_rgb g channel values = some (g', true) := by
  obtain ⟨buf', hbuf', -, -⟩ := set_channel_rgb_loop_spec g.numberOfChannels
    channel h1 values 0 g.channels (le_refl 0) hlen
  refine ⟨{ g with channels := buf' }, ?_⟩
  unfold set_channel_rgb
  rw [hbuf']
  rfl

theorem set_channel_rgb_always_true_witness :
    ∃ g', set_channel_rgb ⟨2, [0, 0]⟩ 1 [999] = some (g', true) :=
  set_channel_rgb_always_true ⟨2, [0, 0]⟩ 1 [999] (by decide) (by decide)

end Artnet
